import Mathlib

/-!
Verification of the token-tile puzzle generator and exact-recall solution
search engine (`precompute_rounds.py` and `precompute_full_recall.py`).

Python values occurring in dictionary files and round records are modelled
by the inductive type `PyVal`; Python `dict`s are association lists whose
lookups return the first binding of a key (Python dictionaries have unique
keys, which we carry as a `Nodup` hypothesis where it matters).
`collections.Counter` objects are represented by the underlying token list:
the counter's value at `t` is `List.count t` and its key set is the list of
distinct elements.
-/

/-- A Python/JSON value as found in the dictionary file and round records. -/
inductive PyVal where
  | str : String → PyVal
  | int : Int → PyVal
  | list : List PyVal → PyVal
  | dict : List (String × PyVal) → PyVal
  | null : PyVal

/-- A Python dictionary mapping words to raw entries. -/
abbrev PyDict := List (String × PyVal)

/-- Test for a string value (Python `isinstance(t, str)`). -/
def isStr : PyVal → Bool
  | .str _ => true
  | _ => false

/-- Extract a string value. -/
def asStr : PyVal → Option String
  | .str s => some s
  | _ => none

/-- `is_entry_ok` from the source: the entry is a dict whose value at
`variant` is a dict whose `"tokens"` value is a non-empty list of strings. -/
def is_entry_ok (entry : PyVal) (variant : String) : Bool :=
  match entry with
  | .dict kvs =>
    match kvs.lookup variant with
    | some (.dict vkvs) =>
      match vkvs.lookup "tokens" with
      | some (.list toks) => decide (0 < toks.length) && toks.all isStr
      | _ => false
    | _ => false
  | _ => false

/-- The token sequence `entry[variant]["tokens"]` of an entry, as strings;
empty when the entry does not have the expected shape. -/
def entryTokens (entry : PyVal) (variant : String) : List String :=
  match entry with
  | .dict kvs =>
    match kvs.lookup variant with
    | some (.dict vkvs) =>
      match vkvs.lookup "tokens" with
      | some (.list toks) => toks.filterMap asStr
      | _ => []
    | _ => []
  | _ => []

theorem filterMap_asStr_length : ∀ {toks : List PyVal},
    (∀ x ∈ toks, isStr x = true) →
    (toks.filterMap asStr).length = toks.length := by
  intro toks
  induction toks with
  | nil => simp
  | cons a as ih =>
    intro h
    rcases a with s | _ | _ | _ | _ <;>
      simp_all [asStr, isStr, List.filterMap_cons]

theorem entryTokens_length_of_ok {entry : PyVal} {variant : String}
    (h : is_entry_ok entry variant = true) :
    0 < (entryTokens entry variant).length := by
  unfold is_entry_ok at h
  unfold entryTokens
  rcases entry with _ | _ | _ | kvs | _ <;> simp_all
  rcases hv : kvs.lookup variant with _ | v
  · simp [hv] at h
  rcases v with _ | _ | _ | vkvs | _ <;> simp_all [hv]
  rcases ht : vkvs.lookup "tokens" with _ | tv
  · simp [ht] at h
  rcases tv with _ | _ | toks | _ | _ <;> simp_all [ht]
  obtain ⟨hlen, hall⟩ := h
  rw [filterMap_asStr_length hall]
  exact hlen

/-- The dictionary index: `word_list`, the per-word token multisets
(represented by the raw token lists), and the reverse index from a token to
the indices of the words containing it. -/
structure Indices where
  word_list : List String
  word_token_counters : List (List String)
  token_to_word_ids : List (String × List Nat)
deriving DecidableEq

/-- `token_to_word_ids[t]` viewed through `defaultdict(list)`: a missing
key reads as the empty list. -/
def lookupIds (m : List (String × List Nat)) (t : String) : List Nat :=
  (m.lookup t).getD []

/-- `token_to_word_ids[t].append(i)` on the association-list model: update
the binding in place when present, otherwise add a fresh binding. -/
def addId (m : List (String × List Nat)) (t : String) (i : Nat) :
    List (String × List Nat) :=
  if (m.lookup t).isSome then
    m.map (fun p => if p.1 = t then (p.1, p.2 ++ [i]) else p)
  else
    m ++ [(t, [i])]

/-- One iteration of the `build_indices` loop body: skip entries failing
validation, otherwise append the word and its counter and register the
word's index under each of its distinct tokens. -/
def build_step (variant : String) (acc : Indices) (p : String × PyVal) :
    Indices :=
  if is_entry_ok p.2 variant then
    let toks := entryTokens p.2 variant
    let idx := acc.word_list.length
    { word_list := acc.word_list ++ [p.1]
      word_token_counters := acc.word_token_counters ++ [toks]
      token_to_word_ids :=
        toks.dedup.foldl (fun m t => addId m t idx) acc.token_to_word_ids }
  else acc

/-- `build_indices` from the source: fold the loop body over the dictionary
items starting from empty indices. -/
def build_indices (dictionary : PyDict) (variant : String) : Indices :=
  dictionary.foldl (build_step variant) ⟨[], [], []⟩

/-- `multiset_subset(needed, available)` from the source: every token count
required by `needed` is available. -/
def multiset_subset (needed available : List String) : Bool :=
  needed.dedup.all (fun t => decide (needed.count t ≤ available.count t))

/-- `compute_solutions_for_round` from the source: prune to candidates
sharing at least one token with the tiles, keep those whose token multiset
is covered by the tile multiset, and sort the surface forms. -/
def compute_solutions_for_round (tiles : List String) (idxs : Indices) :
    List String :=
  let candidate_ids :=
    (tiles.dedup.flatMap (fun t => lookupIds idxs.token_to_word_ids t)).dedup
  let solutions := candidate_ids.filterMap (fun i =>
    if multiset_subset (idxs.word_token_counters.getD i []) tiles then
      some (idxs.word_list.getD i "")
    else none)
  List.insertionSort (· ≤ ·) solutions

/-- The (word, token-sequence) pairs that `build_indices` accepts, in
dictionary order. -/
def acceptedPairs (d : PyDict) (v : String) : List (String × List String) :=
  d.filterMap (fun p =>
    if is_entry_ok p.2 v then some (p.1, entryTokens p.2 v) else none)

theorem foldl_build_step_word_fields (v : String) :
    ∀ (d : PyDict) (acc : Indices),
      (d.foldl (build_step v) acc).word_list =
        acc.word_list ++ (acceptedPairs d v).map Prod.fst ∧
      (d.foldl (build_step v) acc).word_token_counters =
        acc.word_token_counters ++ (acceptedPairs d v).map Prod.snd := by
  intro d
  induction d with
  | nil => simp [acceptedPairs]
  | cons p rest ih =>
    intro acc
    by_cases hok : is_entry_ok p.2 v = true
    · obtain ⟨ih1, ih2⟩ := ih (build_step v acc p)
      constructor
      · rw [List.foldl_cons, ih1]
        simp [build_step, hok, acceptedPairs, List.filterMap_cons]
      · rw [List.foldl_cons, ih2]
        simp [build_step, hok, acceptedPairs, List.filterMap_cons]
    · obtain ⟨ih1, ih2⟩ := ih (build_step v acc p)
      constructor
      · rw [List.foldl_cons, ih1]
        simp [build_step, hok, acceptedPairs, List.filterMap_cons]
      · rw [List.foldl_cons, ih2]
        simp [build_step, hok, acceptedPairs, List.filterMap_cons]

theorem build_indices_word_list (d : PyDict) (v : String) :
    (build_indices d v).word_list = (acceptedPairs d v).map Prod.fst := by
  have := foldl_build_step_word_fields v d ⟨[], [], []⟩
  simpa [build_indices] using this.1

theorem build_indices_word_token_counters (d : PyDict) (v : String) :
    (build_indices d v).word_token_counters =
      (acceptedPairs d v).map Prod.snd := by
  have := foldl_build_step_word_fields v d ⟨[], [], []⟩
  simpa [build_indices] using this.2

theorem mem_acceptedPairs {d : PyDict} {v : String} {w : String}
    {toks : List String} :
    (w, toks) ∈ acceptedPairs d v ↔
      ∃ e, (w, e) ∈ d ∧ is_entry_ok e v = true ∧ toks = entryTokens e v := by
  constructor
  · intro h
    obtain ⟨p, hp, heq⟩ := List.mem_filterMap.mp h
    by_cases hok : is_entry_ok p.2 v = true
    · rw [if_pos hok] at heq
      simp only [Option.some.injEq, Prod.mk.injEq] at heq
      obtain ⟨h1, h2⟩ := heq
      exact ⟨p.2, by simpa [← h1] using hp, hok, h2.symm⟩
    · simp [hok] at heq
  · rintro ⟨e, hmem, hok, htoks⟩
    exact List.mem_filterMap.mpr ⟨(w, e), hmem, by simp [hok, htoks]⟩

theorem lookup_map_bump (t t' : String) (i : Nat) :
    ∀ m : List (String × List Nat),
      (m.map (fun p => if p.1 = t then (p.1, p.2 ++ [i]) else p)).lookup t' =
        (m.lookup t').map (fun l => if t' = t then l ++ [i] else l) := by
  intro m
  induction m with
  | nil => simp
  | cons p rest ih =>
    obtain ⟨k, l⟩ := p
    by_cases hkt : k = t
    · by_cases ht' : t' = k
      · simp [List.lookup_cons, ht', hkt]
      · have ht2 : t' ≠ t := fun h => ht' (h.trans hkt.symm)
        simp [List.lookup_cons, beq_false_of_ne ht', beq_false_of_ne ht2,
          hkt, ht2, ih]
    · by_cases ht' : t' = k
      · simp [List.lookup_cons, ht', hkt]
      · simp [List.lookup_cons, beq_false_of_ne ht', hkt, ih]

theorem lookup_append_new (t t' : String) (i : Nat) :
    ∀ m : List (String × List Nat),
      (m ++ [(t, [i])]).lookup t' =
        match m.lookup t' with
        | some l => some l
        | none => if t' = t then some [i] else none := by
  intro m
  induction m with
  | nil =>
    by_cases h : t' = t <;> simp [List.lookup_cons, h, beq_false_of_ne]
  | cons p rest ih =>
    obtain ⟨k, l⟩ := p
    by_cases h : t' = k
    · simp [List.lookup_cons, h]
    · simp [List.lookup_cons, beq_false_of_ne h, ih]

theorem lookupIds_addId (m : List (String × List Nat)) (t t' : String)
    (i : Nat) :
    lookupIds (addId m t i) t' =
      if t' = t then lookupIds m t' ++ [i] else lookupIds m t' := by
  unfold addId lookupIds
  by_cases hs : (m.lookup t).isSome
  · rw [if_pos hs, lookup_map_bump]
    by_cases ht : t' = t
    · subst ht
      obtain ⟨l, hl⟩ := Option.isSome_iff_exists.mp hs
      simp [hl]
    · cases hm : m.lookup t' <;> simp [ht, hm]
  · rw [if_neg hs, lookup_append_new]
    by_cases ht : t' = t
    · subst ht
      have hn : m.lookup t' = none := Option.not_isSome_iff_eq_none.mp hs
      simp [hn]
    · cases hm : m.lookup t' <;> simp [ht, hm]

theorem lookupIds_foldl_addId (i : Nat) :
    ∀ (ts : List String) (m : List (String × List Nat)) (t' : String),
      ts.Nodup →
      lookupIds (ts.foldl (fun m t => addId m t i) m) t' =
        if t' ∈ ts then lookupIds m t' ++ [i] else lookupIds m t' := by
  intro ts
  induction ts with
  | nil => simp
  | cons t ts ih =>
    intro m t' hnd
    rcases List.nodup_cons.mp hnd with ⟨htn, htsnd⟩
    rw [List.foldl_cons, ih _ _ htsnd]
    simp only [lookupIds_addId]
    by_cases hmem : t' ∈ ts
    · have hne : t' ≠ t := fun h => htn (h ▸ hmem)
      simp [hmem, hne, List.mem_cons]
    · by_cases heq : t' = t
      · simp [hmem, heq, List.mem_cons, htn]
      · simp [hmem, heq, List.mem_cons]

/-- The invariant maintained while building the indices: `word_list` and
`word_token_counters` stay aligned, and the reverse index holds `i` under
`t` exactly when word `i` exists and its counter has a positive count
at `t`. -/
def IndicesInv (s : Indices) : Prop :=
  s.word_list.length = s.word_token_counters.length ∧
  ∀ t i, i ∈ lookupIds s.token_to_word_ids t ↔
    i < s.word_token_counters.length ∧
      0 < (s.word_token_counters.getD i []).count t

theorem build_step_inv {v : String} {acc : Indices} (p : String × PyVal)
    (h : IndicesInv acc) : IndicesInv (build_step v acc p) := by
  obtain ⟨hlen, hids⟩ := h
  by_cases hok : is_entry_ok p.2 v = true
  · constructor
    · simp [build_step, hok, hlen]
    · intro t i
      simp only [build_step, hok, if_pos, List.length_append,
        List.length_singleton]
      rw [lookupIds_foldl_addId _ _ _ _ (List.nodup_dedup _)]
      by_cases hmem : t ∈ (entryTokens p.2 v).dedup
      · rw [if_pos hmem]
        constructor
        · intro hi
          rcases List.mem_append.mp hi with hi | hi
          · obtain ⟨hlt, hcnt⟩ := (hids t i).mp hi
            refine ⟨by omega, ?_⟩
            rwa [List.getD_append _ _ _ _ hlt]
          · have hi' : i = acc.word_list.length := by simpa using hi
            subst hi'
            refine ⟨by omega, ?_⟩
            rw [hlen, List.getD_append_right _ _ _ _ (le_refl _)]
            simpa using List.count_pos_iff.mpr (List.mem_dedup.mp hmem)
        · rintro ⟨hlt, hcnt⟩
          by_cases hi : i < acc.word_token_counters.length
          · rw [List.getD_append _ _ _ _ hi] at hcnt
            exact List.mem_append.mpr (Or.inl ((hids t i).mpr ⟨hi, hcnt⟩))
          · have hieq : i = acc.word_token_counters.length := by omega
            exact List.mem_append.mpr (Or.inr (by simp [hieq, hlen]))
      · rw [if_neg hmem]
        constructor
        · intro hi
          obtain ⟨hlt, hcnt⟩ := (hids t i).mp hi
          refine ⟨by omega, ?_⟩
          rwa [List.getD_append _ _ _ _ hlt]
        · rintro ⟨hlt, hcnt⟩
          by_cases hi : i < acc.word_token_counters.length
          · rw [List.getD_append _ _ _ _ hi] at hcnt
            exact (hids t i).mpr ⟨hi, hcnt⟩
          · exfalso
            have hieq : i = acc.word_token_counters.length := by omega
            rw [hieq, List.getD_append_right _ _ _ _ (le_refl _)] at hcnt
            simp at hcnt
            exact hmem (List.mem_dedup.mpr hcnt)
  · simpa [build_step, hok] using ⟨hlen, hids⟩

theorem build_indices_inv (d : PyDict) (v : String) :
    IndicesInv (build_indices d v) := by
  have base : IndicesInv ⟨[], [], []⟩ := by
    constructor
    · rfl
    · intro t i
      simp [lookupIds]
  have step : ∀ (rest : PyDict) (acc : Indices), IndicesInv acc →
      IndicesInv (rest.foldl (build_step v) acc) := by
    intro rest
    induction rest with
    | nil => intro acc h; simpa using h
    | cons p rest ih =>
      intro acc h
      rw [List.foldl_cons]
      exact ih _ (build_step_inv p h)
  exact step d _ base

theorem multiset_subset_iff (needed available : List String) :
    multiset_subset needed available = true ↔
      ∀ t, needed.count t ≤ available.count t := by
  unfold multiset_subset
  rw [List.all_eq_true]
  constructor
  · intro h t
    by_cases hm : t ∈ needed
    · simpa using h t (List.mem_dedup.mpr hm)
    · simp [List.count_eq_zero_of_not_mem hm]
  · intro h t _
    simpa using h t

theorem multiset_subset_iff_le (needed available : List String) :
    multiset_subset needed available = true ↔
      (needed : Multiset String) ≤ (available : Multiset String) := by
  rw [multiset_subset_iff, Multiset.le_iff_count]
  constructor
  · intro h t
    simpa [Multiset.coe_count] using h t
  · intro h t
    simpa [Multiset.coe_count] using h t

theorem acceptedPairs_snd_nonempty {d : PyDict} {v : String}
    {p : String × List String} (hp : p ∈ acceptedPairs d v) : p.2 ≠ [] := by
  obtain ⟨w, toks⟩ := p
  obtain ⟨e, _, hok, htoks⟩ := mem_acceptedPairs.mp hp
  intro hempty
  have hpos := entryTokens_length_of_ok hok
  simp only at hempty
  rw [← htoks] at hpos
  simp [hempty] at hpos

theorem build_indices_counters_nonempty (d : PyDict) (v : String) {i : Nat}
    (hi : i < (build_indices d v).word_token_counters.length) :
    (build_indices d v).word_token_counters.getD i [] ≠ [] := by
  rw [build_indices_word_token_counters] at hi ⊢
  have hlt : i < (acceptedPairs d v).length := by simpa using hi
  rw [List.getD_eq_getElem _ _ hi, List.getElem_map]
  exact acceptedPairs_snd_nonempty (List.getElem_mem hlt)

theorem mem_compute_solutions_iff (d : PyDict) (v : String)
    (tiles : List String) (w : String) :
    w ∈ compute_solutions_for_round tiles (build_indices d v) ↔
      ∃ i, i < (build_indices d v).word_token_counters.length ∧
        (build_indices d v).word_list.getD i "" = w ∧
        multiset_subset
          ((build_indices d v).word_token_counters.getD i []) tiles
            = true := by
  obtain ⟨hlen, hids⟩ := build_indices_inv d v
  unfold compute_solutions_for_round
  rw [List.mem_insertionSort, List.mem_filterMap]
  constructor
  · rintro ⟨i, hi, heq⟩
    by_cases hss : multiset_subset
        ((build_indices d v).word_token_counters.getD i []) tiles = true
    · rw [if_pos hss] at heq
      obtain ⟨t, _, hit⟩ := List.mem_flatMap.mp (List.mem_dedup.mp hi)
      obtain ⟨hlt, _⟩ := (hids t i).mp hit
      exact ⟨i, hlt, Option.some.inj heq, hss⟩
    · rw [if_neg hss] at heq
      exact absurd heq (by simp)
  · rintro ⟨i, hlt, hw, hss⟩
    refine ⟨i, ?_, by rw [if_pos hss, hw]⟩
    rw [List.mem_dedup, List.mem_flatMap]
    have hne := build_indices_counters_nonempty d v hlt
    obtain ⟨t0, ht0⟩ := List.exists_mem_of_ne_nil _ hne
    refine ⟨t0, ?_, (hids t0 i).mpr
      ⟨hlt, List.count_pos_iff.mpr ht0⟩⟩
    rw [List.mem_dedup]
    have hcnt := (multiset_subset_iff _ _).mp hss t0
    have : 0 < tiles.count t0 :=
      lt_of_lt_of_le (List.count_pos_iff.mpr ht0) hcnt
    exact List.count_pos_iff.mp this

theorem build_indices_entry_exists (d : PyDict) (v : String) {i : Nat}
    (hi : i < (build_indices d v).word_list.length) :
    ∃ e, ((build_indices d v).word_list.getD i "", e) ∈ d ∧
      is_entry_ok e v = true ∧
      (build_indices d v).word_token_counters.getD i [] =
        entryTokens e v := by
  rw [build_indices_word_list] at hi ⊢
  have hlt : i < (acceptedPairs d v).length := by simpa using hi
  have hi2 : i < ((acceptedPairs d v).map Prod.snd).length := by
    simpa using hlt
  rw [build_indices_word_token_counters]
  rw [List.getD_eq_getElem _ _ hi, List.getD_eq_getElem _ _ hi2]
  simp only [List.getElem_map]
  obtain ⟨e, hmem, hok, htoks⟩ := mem_acceptedPairs.mp
    (show ((acceptedPairs d v)[i].1, (acceptedPairs d v)[i].2) ∈
        acceptedPairs d v from List.getElem_mem hlt)
  exact ⟨e, hmem, hok, htoks⟩

theorem mem_nodup_keys_unique : ∀ {d : PyDict} {w : String} {a b : PyVal},
    (d.map Prod.fst).Nodup → (w, a) ∈ d → (w, b) ∈ d → a = b := by
  intro d
  induction d with
  | nil =>
    intro w a b _ ha
    simp at ha
  | cons p rest ih =>
    intro w a b hnd ha hb
    rw [List.map_cons, List.nodup_cons] at hnd
    rcases List.mem_cons.mp ha with ha | ha <;>
      rcases List.mem_cons.mp hb with hb | hb
    · have hab : (w, a) = (w, b) := ha.trans hb.symm
      injection hab with h1 h2
    · exfalso
      apply hnd.1
      have hw : p.1 = w := by rw [← ha]
      rw [hw]
      exact List.mem_map_of_mem Prod.fst hb
    · exfalso
      apply hnd.1
      have hw : p.1 = w := by rw [← hb]
      rw [hw]
      exact List.mem_map_of_mem Prod.fst ha
    · exact ih hnd.2 ha hb

theorem acceptedPairs_fst_sublist (d : PyDict) (v : String) :
    ((acceptedPairs d v).map Prod.fst).Sublist (d.map Prod.fst) := by
  induction d with
  | nil => simp [acceptedPairs]
  | cons p rest ih =>
    by_cases hok : is_entry_ok p.2 v = true
    · simp only [acceptedPairs, List.filterMap_cons, hok, if_pos,
        List.map_cons]
      exact ih.cons₂ _
    · have hskip : acceptedPairs (p :: rest) v = acceptedPairs rest v := by
        simp only [acceptedPairs, List.filterMap_cons]
        rw [if_neg hok]
      rw [hskip, List.map_cons]
      exact ih.cons _

theorem build_indices_word_list_nodup {d : PyDict} {v : String}
    (hnd : (d.map Prod.fst).Nodup) :
    (build_indices d v).word_list.Nodup := by
  rw [build_indices_word_list]
  exact hnd.sublist (acceptedPairs_fst_sublist d v)

/-- Brute-force ground-truth solution set, written from the specification
sentence: the set of words accepted into the index whose token multiset is
a sub-multiset of the tile multiset, compared over every indexed word. -/
def brute_force_solutions (tiles : List String) (idxs : Indices) :
    List String :=
  (List.range idxs.word_list.length).filterMap (fun i =>
    if (idxs.word_token_counters.getD i [] : Multiset String) ≤
        (tiles : Multiset String) then
      some (idxs.word_list.getD i "")
    else none)

/-- C1: `compute_solutions_for_round`, with its candidate pruning through
`token_to_word_ids`, returns exactly the same set of words as the
brute-force sub-multiset test over every word accepted into the index; the
pruning never removes a true solution. -/
theorem compute_solutions_eq_brute_force (d : PyDict) (v : String)
    (tiles : List String) (w : String) :
    w ∈ compute_solutions_for_round tiles (build_indices d v) ↔
      w ∈ brute_force_solutions tiles (build_indices d v) := by
  rw [mem_compute_solutions_iff]
  unfold brute_force_solutions
  rw [List.mem_filterMap]
  have hlen := (build_indices_inv d v).1
  constructor
  · rintro ⟨i, hlt, hw, hss⟩
    refine ⟨i, List.mem_range.mpr (by omega), ?_⟩
    rw [if_pos ((multiset_subset_iff_le _ _).mp hss), hw]
  · rintro ⟨i, hi, heq⟩
    have hi' := List.mem_range.mp hi
    by_cases hle : ((build_indices d v).word_token_counters.getD i [] :
        Multiset String) ≤ (tiles : Multiset String)
    · rw [if_pos hle] at heq
      exact ⟨i, by omega, Option.some.inj heq,
        (multiset_subset_iff_le _ _).mpr hle⟩
    · rw [if_neg hle] at heq
      exact absurd heq (by simp)

/-- C2: a word whose token multiset requires token `t` with multiplicity at
least two is never reported as a solution for a tile list carrying fewer
copies of `t` than required, even when every distinct token is present. -/
theorem multiplicity_sensitivity (d : PyDict) (v w t : String) (e : PyVal)
    (tiles : List String)
    (hnd : (d.map Prod.fst).Nodup)
    (hmem : (w, e) ∈ d)
    (hok : is_entry_ok e v = true)
    (h2 : 2 ≤ (entryTokens e v).count t)
    (hcountlt : tiles.count t < (entryTokens e v).count t) :
    w ∉ compute_solutions_for_round tiles (build_indices d v) := by
  rw [mem_compute_solutions_iff]
  rintro ⟨i, hi, hw, hss⟩
  have hlen := (build_indices_inv d v).1
  obtain ⟨e', hmem', hok', htoks'⟩ :=
    build_indices_entry_exists d v (show i <
      (build_indices d v).word_list.length by omega)
  rw [hw] at hmem'
  have hee : e' = e := mem_nodup_keys_unique hnd hmem' hmem
  subst hee
  have hcnt := (multiset_subset_iff _ _).mp hss t
  rw [htoks'] at hcnt
  omega

/-- C5: the reverse index of `build_indices` holds index `i` under token
`t` exactly when word `i` exists and its token counter is positive at `t`,
and every word placed in `word_list` comes from an entry passing
validation, with a non-empty token list for the chosen variant. -/
theorem build_indices_index_correct (d : PyDict) (v : String) (t : String)
    (i : Nat) :
    (i ∈ lookupIds (build_indices d v).token_to_word_ids t ↔
      i < (build_indices d v).word_token_counters.length ∧
        0 < ((build_indices d v).word_token_counters.getD i []).count t) ∧
    (build_indices d v).word_list.length =
      (build_indices d v).word_token_counters.length ∧
    (i < (build_indices d v).word_list.length →
      ∃ e, ((build_indices d v).word_list.getD i "", e) ∈ d ∧
        is_entry_ok e v = true ∧
        (build_indices d v).word_token_counters.getD i [] =
          entryTokens e v ∧
        (build_indices d v).word_token_counters.getD i [] ≠ []) := by
  obtain ⟨hlen, hids⟩ := build_indices_inv d v
  refine ⟨hids t i, hlen, fun hi => ?_⟩
  obtain ⟨e, hmem, hok, htoks⟩ := build_indices_entry_exists d v hi
  exact ⟨e, hmem, hok, htoks,
    build_indices_counters_nonempty d v (by omega)⟩

/-- C10: the solution search on an empty tile list returns the empty list
for every dictionary and variant. -/
theorem compute_solutions_empty_tiles (d : PyDict) (v : String) :
    compute_solutions_for_round [] (build_indices d v) = [] := rfl

theorem compute_solutions_eq (tiles : List String) (idxs : Indices) :
    compute_solutions_for_round tiles idxs =
      List.insertionSort (· ≤ ·)
        (((tiles.dedup.flatMap
            (fun t => lookupIds idxs.token_to_word_ids t)).dedup).filterMap
          (fun i =>
            if multiset_subset (idxs.word_token_counters.getD i []) tiles then
              some (idxs.word_list.getD i "")
            else none)) := rfl

theorem filterMap_if_eq_map_filter {α β : Type} (l : List α) (c : α → Bool)
    (g : α → β) :
    l.filterMap (fun i => if c i then some (g i) else none) =
      (l.filter c).map g := by
  induction l with
  | nil => rfl
  | cons a l ih =>
    by_cases h : c a <;>
      simp [List.filterMap_cons, List.filter_cons, h, ih]

theorem candidate_mem_lt {d : PyDict} {v : String} {tiles : List String}
    {i : Nat}
    (hi : i ∈ (tiles.dedup.flatMap
      (fun t => lookupIds (build_indices d v).token_to_word_ids t)).dedup) :
    i < (build_indices d v).word_token_counters.length := by
  obtain ⟨t, _, hit⟩ := List.mem_flatMap.mp (List.mem_dedup.mp hi)
  exact (((build_indices_inv d v).2 t i).mp hit).1

theorem compute_solutions_sorted (tiles : List String) (idxs : Indices) :
    List.Sorted (· ≤ ·) (compute_solutions_for_round tiles idxs) := by
  rw [compute_solutions_eq]
  exact List.sorted_insertionSort _ _

theorem compute_solutions_nodup {d : PyDict} {v : String}
    (tiles : List String) (hnd : (d.map Prod.fst).Nodup) :
    (compute_solutions_for_round tiles (build_indices d v)).Nodup := by
  rw [compute_solutions_eq]
  apply (List.perm_insertionSort _ _).symm.nodup
  rw [filterMap_if_eq_map_filter]
  apply List.Nodup.map_on
  · intro x hx y hy hxy
    have hx1 := candidate_mem_lt (d := d) (v := v)
      (List.mem_of_mem_filter hx)
    have hy1 := candidate_mem_lt (d := d) (v := v)
      (List.mem_of_mem_filter hy)
    have hlen := (build_indices_inv d v).1
    have hwl := build_indices_word_list_nodup (v := v) hnd
    rw [List.getD_eq_getElem _ _ (by omega),
      List.getD_eq_getElem _ _ (by omega)] at hxy
    exact (List.Nodup.getElem_inj_iff hwl).mp hxy
  · exact (List.nodup_dedup _).filter _

/-- Python dict assignment `r[k] = val` on the association-list model:
replace the value in place when the key exists, otherwise append the
binding. -/
def setKey (m : List (String × PyVal)) (k : String) (val : PyVal) :
    List (String × PyVal) :=
  if (m.lookup k).isSome then
    m.map (fun p => if p.1 = k then (p.1, val) else p)
  else
    m ++ [(k, val)]

/-- Per-record enrichment step of the search-engine driver from `main` of
`precompute_full_recall.py`: optionally verify the round's declared
variant, validate the tiles field, compute the solutions and add the
`all_solutions` and `n_solutions` fields. -/
def enrich_record (verify : Bool) (variant : String)
    (r : List (String × PyVal)) (idxs : Indices) :
    Except String (List (String × PyVal)) :=
  let variantOk : Bool :=
    match r.lookup "variant" with
    | some (.str s) => s == variant
    | _ => false
  if verify && !variantOk then
    Except.error "Round variant mismatch"
  else
    match r.lookup "tiles" with
    | some (.list ts) =>
      if ts.all isStr then
        let tiles := ts.filterMap asStr
        let sols := compute_solutions_for_round tiles idxs
        Except.ok (setKey (setKey r "all_solutions"
          (PyVal.list (sols.map PyVal.str))) "n_solutions"
          (PyVal.int sols.length))
      else Except.error "Invalid tiles"
    | _ => Except.error "Invalid tiles"

theorem lookup_map_set (k k' : String) (val : PyVal) :
    ∀ m : List (String × PyVal),
      (m.map (fun p => if p.1 = k then (p.1, val) else p)).lookup k' =
        (m.lookup k').map (fun old => if k' = k then val else old) := by
  intro m
  induction m with
  | nil => simp
  | cons p rest ih =>
    obtain ⟨a, b⟩ := p
    by_cases hak : a = k
    · by_cases ht' : k' = a
      · simp [List.lookup_cons, ht', hak]
      · have ht2 : k' ≠ k := fun h => ht' (h.trans hak.symm)
        simp [List.lookup_cons, beq_false_of_ne ht', beq_false_of_ne ht2,
          hak, ht2, ih]
    · by_cases ht' : k' = a
      · simp [List.lookup_cons, ht', hak]
      · simp [List.lookup_cons, beq_false_of_ne ht', hak, ih]

theorem lookup_append_set (k k' : String) (val : PyVal) :
    ∀ m : List (String × PyVal),
      (m ++ [(k, val)]).lookup k' =
        match m.lookup k' with
        | some old => some old
        | none => if k' = k then some val else none := by
  intro m
  induction m with
  | nil =>
    by_cases h : k' = k <;> simp [List.lookup_cons, h, beq_false_of_ne]
  | cons p rest ih =>
    obtain ⟨a, b⟩ := p
    by_cases h : k' = a
    · simp [List.lookup_cons, h]
    · simp [List.lookup_cons, beq_false_of_ne h, ih]

theorem lookup_setKey_self (m : List (String × PyVal)) (k : String)
    (val : PyVal) : (setKey m k val).lookup k = some val := by
  unfold setKey
  by_cases hs : (m.lookup k).isSome
  · rw [if_pos hs, lookup_map_set]
    obtain ⟨old, hold⟩ := Option.isSome_iff_exists.mp hs
    simp [hold]
  · rw [if_neg hs, lookup_append_set]
    have hn := Option.not_isSome_iff_eq_none.mp hs
    simp [hn]

theorem lookup_setKey_other (m : List (String × PyVal)) {k k' : String}
    (val : PyVal) (h : k' ≠ k) :
    (setKey m k val).lookup k' = m.lookup k' := by
  unfold setKey
  by_cases hs : (m.lookup k).isSome
  · rw [if_pos hs, lookup_map_set]
    cases hm : m.lookup k' <;> simp [h, hm]
  · rw [if_neg hs, lookup_append_set]
    cases hm : m.lookup k' <;> simp [h, hm]

theorem enrich_record_ok_shape {verify : Bool} {variant : String}
    {r r' : List (String × PyVal)} {idxs : Indices}
    (h : enrich_record verify variant r idxs = Except.ok r') :
    ∃ ts : List PyVal, r.lookup "tiles" = some (PyVal.list ts) ∧
      ts.all isStr = true ∧
      r' = setKey (setKey r "all_solutions"
        (PyVal.list ((compute_solutions_for_round (ts.filterMap asStr)
          idxs).map PyVal.str))) "n_solutions"
        (PyVal.int (compute_solutions_for_round (ts.filterMap asStr)
          idxs).length) := by
  unfold enrich_record at h
  simp only [] at h
  by_cases hv : (verify && !(match r.lookup "variant" with
      | some (.str s) => s == variant
      | _ => false)) = true
  · rw [if_pos hv] at h
    cases h
  · rw [if_neg hv] at h
    rcases htl : r.lookup "tiles" with _ | tv
    · rw [htl] at h
      cases h
    · rcases tv with s | n | ts | kv | _
      · rw [htl] at h; cases h
      · rw [htl] at h; cases h
      · rw [htl] at h
        dsimp only at h
        by_cases hall : ts.all isStr = true
        · rw [if_pos hall] at h
          exact ⟨ts, rfl, hall, (Except.ok.inj h).symm⟩
        · rw [if_neg hall] at h
          cases h
      · rw [htl] at h; cases h
      · rw [htl] at h; cases h

/-- C9: enrichment writes only the `all_solutions` and `n_solutions`
fields; the value of every other field of the written record equals its
value in the input record. -/
theorem enrich_record_frame (verify : Bool) (variant : String)
    (r r' : List (String × PyVal)) (idxs : Indices) (k : String)
    (h : enrich_record verify variant r idxs = Except.ok r')
    (h1 : k ≠ "all_solutions") (h2 : k ≠ "n_solutions") :
    r'.lookup k = r.lookup k := by
  obtain ⟨ts, _, _, hr'⟩ := enrich_record_ok_shape h
  rw [hr', lookup_setKey_other _ _ h2, lookup_setKey_other _ _ h1]

/-- C4: every record enriched by the search engine carries an
`all_solutions` list of strings that is lexicographically sorted and free
of duplicates, and an `n_solutions` field equal to its length. -/
theorem enriched_solutions_sorted_unique (d : PyDict) (v : String)
    (verify : Bool) (r r' : List (String × PyVal))
    (hnd : (d.map Prod.fst).Nodup)
    (h : enrich_record verify v r (build_indices d v) = Except.ok r') :
    ∃ sols : List String,
      r'.lookup "all_solutions" = some (PyVal.list (sols.map PyVal.str)) ∧
      r'.lookup "n_solutions" = some (PyVal.int sols.length) ∧
      List.Sorted (· ≤ ·) sols ∧ sols.Nodup := by
  obtain ⟨ts, htl, hall, hr'⟩ := enrich_record_ok_shape h
  refine ⟨compute_solutions_for_round (ts.filterMap asStr)
    (build_indices d v), ?_, ?_, compute_solutions_sorted _ _,
    compute_solutions_nodup _ hnd⟩
  · rw [hr', lookup_setKey_other _ _ (by decide), lookup_setKey_self]
  · rw [hr', lookup_setKey_self]

/-- `build_word_pool` from `precompute_rounds.py`: words passing entry
validation whose token-sequence length for the variant lies within the
inclusive bounds. -/
def build_word_pool (d : PyDict) (variant : String)
    (min_tokens max_tokens : Nat) : List String :=
  d.filterMap (fun p =>
    if is_entry_ok p.2 variant then
      if min_tokens ≤ (entryTokens p.2 variant).length ∧
          (entryTokens p.2 variant).length ≤ max_tokens then
        some p.1
      else none
    else none)

theorem mem_build_word_pool {d : PyDict} {v : String}
    {min_tokens max_tokens : Nat} {w : String}
    (h : w ∈ build_word_pool d v min_tokens max_tokens) :
    ∃ e, (w, e) ∈ d ∧ is_entry_ok e v = true ∧
      min_tokens ≤ (entryTokens e v).length ∧
      (entryTokens e v).length ≤ max_tokens := by
  obtain ⟨p, hp, heq⟩ := List.mem_filterMap.mp h
  by_cases hok : is_entry_ok p.2 v = true
  · rw [if_pos hok] at heq
    by_cases hb : min_tokens ≤ (entryTokens p.2 v).length ∧
        (entryTokens p.2 v).length ≤ max_tokens
    · rw [if_pos hb] at heq
      have hw : p.1 = w := Option.some.inj heq
      exact ⟨p.2, by rw [← hw]; exact hp, hok, hb.1, hb.2⟩
    · rw [if_neg hb] at heq
      cases heq
  · rw [if_neg hok] at heq
    cases heq

/-- `round_tiles_from_targets` from the source, with the distractor tokens
supplied as an argument (the source draws them randomly) and the final
shuffle modelled at the use sites as an arbitrary permutation: the tiles
are the concatenation of every target's full token sequence followed by
the distractors, and the target map records each target's sequence. -/
def round_tiles_from_targets (targets : List String) (dictionary : PyDict)
    (variant : String) (distractors : List String) :
    List String × List (String × List String) :=
  let target_map := targets.map (fun w =>
    (w, entryTokens ((dictionary.lookup w).getD PyVal.null) variant))
  (target_map.flatMap (fun p => p.2) ++ distractors, target_map)

theorem round_tiles_fst (targets : List String) (d : PyDict) (v : String)
    (distractors : List String) :
    (round_tiles_from_targets targets d v distractors).1 =
      (targets.map (fun w =>
        (w, entryTokens ((d.lookup w).getD PyVal.null) v))).flatMap
          (fun p => p.2) ++ distractors := rfl

theorem lookup_eq_of_mem : ∀ {d : PyDict} {w : String} {e : PyVal},
    (d.map Prod.fst).Nodup → (w, e) ∈ d → d.lookup w = some e := by
  intro d
  induction d with
  | nil =>
    intro w e _ h
    simp at h
  | cons p rest ih =>
    intro w e hnd hmem
    rw [List.map_cons, List.nodup_cons] at hnd
    rcases List.mem_cons.mp hmem with h | h
    · rw [← h, List.lookup_cons]
      simp
    · have hne : w ≠ p.1 := by
        intro he
        apply hnd.1
        have := List.mem_map_of_mem Prod.fst h
        rw [← he]
        exact this
      obtain ⟨a, b⟩ := p
      rw [List.lookup_cons]
      simp only [beq_false_of_ne hne]
      exact ih hnd.2 h

theorem count_flatMap_ge {α : Type} (f : α → List String)
    {l : List α} {a : α} (h : a ∈ l) (t : String) :
    (f a).count t ≤ (l.flatMap f).count t := by
  obtain ⟨s, s', rfl⟩ := List.append_of_mem h
  rw [List.flatMap_append, List.flatMap_cons]
  simp only [List.count_append]
  omega

theorem acceptedPairs_index {d : PyDict} {v : String} {w : String}
    {toks : List String} (h : (w, toks) ∈ acceptedPairs d v) :
    ∃ i, i < (build_indices d v).word_token_counters.length ∧
      (build_indices d v).word_list.getD i "" = w ∧
      (build_indices d v).word_token_counters.getD i [] = toks := by
  obtain ⟨i, hlt, hget⟩ := List.mem_iff_getElem.mp h
  refine ⟨i, ?_, ?_, ?_⟩
  · rw [build_indices_word_token_counters]
    simpa using hlt
  · rw [build_indices_word_list,
      List.getD_eq_getElem _ _ (by simpa using hlt), List.getElem_map, hget]
  · rw [build_indices_word_token_counters,
      List.getD_eq_getElem _ _ (by simpa using hlt), List.getElem_map, hget]

/-- C3: every target of a generated round is reported by the solution
search on the round's tiles under the same dictionary and variant: the
tiles are built by appending each target's full token sequence (plus
distractors) and shuffling, so each target's token multiset is covered by
the tile multiset. -/
theorem target_inclusion (d : PyDict) (v : String)
    (min_tokens max_tokens : Nat)
    (targets distractors tiles : List String) (w : String)
    (hnd : (d.map Prod.fst).Nodup)
    (hsub : targets ⊆ build_word_pool d v min_tokens max_tokens)
    (hperm : tiles.Perm (round_tiles_from_targets targets d v distractors).1)
    (hw : w ∈ targets) :
    w ∈ compute_solutions_for_round tiles (build_indices d v) := by
  obtain ⟨e, hmem, hok, _, _⟩ := mem_build_word_pool (hsub hw)
  have hlk : d.lookup w = some e := lookup_eq_of_mem hnd hmem
  obtain ⟨i, hlt, hwl, hwtc⟩ := acceptedPairs_index
    (mem_acceptedPairs.mpr ⟨e, hmem, hok, rfl⟩)
  rw [mem_compute_solutions_iff]
  refine ⟨i, hlt, hwl, ?_⟩
  rw [hwtc, multiset_subset_iff]
  intro t
  rw [hperm.count_eq, round_tiles_fst, List.count_append]
  have hmm : (w, entryTokens e v) ∈ targets.map (fun w' =>
      (w', entryTokens ((d.lookup w').getD PyVal.null) v)) := by
    have h0 := List.mem_map_of_mem
      (fun w' => (w', entryTokens ((d.lookup w').getD PyVal.null) v)) hw
    simpa [hlk] using h0
  have := count_flatMap_ge (fun p => p.2) hmm t
  simp only at this
  omega

/-- Generation parameters recorded in each round's `meta` field. -/
structure GenMeta where
  k_targets : Nat
  distractors : Nat
  min_tokens : Nat
  max_tokens : Nat
  seed : Nat
deriving DecidableEq

/-- Command-line parameters of `main` in `precompute_rounds.py`. -/
structure Params where
  n_rounds : Nat
  variant : String
  k_targets : Nat
  distractors : Nat
  seed : Nat
  min_tokens : Nat
  max_tokens : Nat
  max_tiles : Nat
  ensure_unique_rounds : Bool
deriving DecidableEq

/-- A round object as written to the output stream by the generator. -/
structure RoundObj where
  round_id : Nat
  variant : String
  tiles : List String
  targets : List String
  target_tokens : List (String × List String)
  meta : GenMeta
deriving DecidableEq

/-- Lexicographic comparison of (token, count) pairs, as Python sorts
tuples. -/
def sigLe (a b : String × Nat) : Prop :=
  a.1 < b.1 ∨ (a.1 = b.1 ∧ a.2 ≤ b.2)

instance : DecidableRel sigLe := fun a b =>
  inferInstanceAs (Decidable (a.1 < b.1 ∨ (a.1 = b.1 ∧ a.2 ≤ b.2)))

/-- Canonical signature of a tile list, the sorted sequence of
(token, count) pairs of its multiset: `tuple(sorted(Counter(tiles).items()))`
from the source. -/
def signature (tiles : List String) : List (String × Nat) :=
  List.insertionSort sigLe (tiles.dedup.map (fun t => (t, tiles.count t)))

/-- The round object assembled by the driver on acceptance of a round. -/
def mkRound (p : Params) (written : Nat) (tiles targets : List String)
    (target_map : List (String × List String)) : RoundObj :=
  { round_id := written
    variant := p.variant
    tiles := tiles
    targets := targets
    target_tokens := target_map
    meta := { k_targets := p.k_targets
              distractors := p.distractors
              min_tokens := p.min_tokens
              max_tokens := p.max_tokens
              seed := p.seed } }

/-- The generation loop of `main` in `precompute_rounds.py`, recursing on
the remaining attempt budget. The randomness (target samples and
distractor draws) is supplied by the `draw` stream indexed by attempt
number; the in-round shuffle is omitted because every driver check and
recorded value (tile count, signature, tile multiset) is invariant under
it. -/
def gen_loop (dct : PyDict) (p : Params)
    (draw : Nat → List String × List String) :
    Nat → Nat → List (List (String × Nat)) → List RoundObj →
      List RoundObj
  | 0, _, _, out => out
  | fuel + 1, attempts, seen, out =>
    if p.n_rounds ≤ out.length then out
    else
      let td := draw attempts
      let r := round_tiles_from_targets td.1 dct p.variant td.2
      if p.max_tiles < r.1.length then
        gen_loop dct p draw fuel (attempts + 1) seen out
      else if p.ensure_unique_rounds && decide (signature r.1 ∈ seen) then
        gen_loop dct p draw fuel (attempts + 1) seen out
      else
        gen_loop dct p draw fuel (attempts + 1)
          (if p.ensure_unique_rounds then seen ++ [signature r.1] else seen)
          (out ++ [mkRound p out.length r.1 td.1 r.2])

/-- The success view of the batch driver: run the loop with retry budget
`n_rounds * 20` starting from an empty signature set and output, and fail
when fewer than `n_rounds` rounds were produced. The `ok` payload is the
round stream of a successful run; the content of the output file on both
paths, which the source persists even when the final check raises, is
modelled separately by `gen_run` below. -/
def gen_main (dct : PyDict) (p : Params)
    (draw : Nat → List String × List String) :
    Except String (List RoundObj) :=
  let out := gen_loop dct p draw (p.n_rounds * 20) 0 [] []
  if out.length < p.n_rounds then
    Except.error "wrote fewer rounds than requested"
  else
    Except.ok out

theorem gen_loop_size_bound (dct : PyDict) (p : Params)
    (draw : Nat → List String × List String) :
    ∀ (fuel attempts : Nat) (seen : List (List (String × Nat)))
      (out : List RoundObj),
      (∀ r ∈ out, r.tiles.length ≤ p.max_tiles) →
      ∀ r ∈ gen_loop dct p draw fuel attempts seen out,
        r.tiles.length ≤ p.max_tiles := by
  intro fuel
  induction fuel with
  | zero =>
    intro attempts seen out h
    simpa [gen_loop] using h
  | succ fuel ih =>
    intro attempts seen out h r hr
    rw [gen_loop] at hr
    by_cases hfull : p.n_rounds ≤ out.length
    · rw [if_pos hfull] at hr
      exact h r hr
    · rw [if_neg hfull] at hr
      by_cases hsize : p.max_tiles <
          (round_tiles_from_targets (draw attempts).1 dct p.variant
            (draw attempts).2).1.length
      · rw [if_pos hsize] at hr
        exact ih _ _ _ h r hr
      · rw [if_neg hsize] at hr
        by_cases hdup : (p.ensure_unique_rounds &&
            decide (signature (round_tiles_from_targets (draw attempts).1
              dct p.variant (draw attempts).2).1 ∈ seen)) = true
        · rw [if_pos hdup] at hr
          exact ih _ _ _ h r hr
        · rw [if_neg hdup] at hr
          refine ih _ _ _ ?_ r hr
          intro r' hr'
          rcases List.mem_append.mp hr' with hmem | hmem
          · exact h r' hmem
          · have hr'' : r' = mkRound p out.length
                (round_tiles_from_targets (draw attempts).1 dct p.variant
                  (draw attempts).2).1 (draw attempts).1
                (round_tiles_from_targets (draw attempts).1 dct p.variant
                  (draw attempts).2).2 := by
              simpa using hmem
            rw [hr'']
            simpa [mkRound] using Nat.le_of_not_lt hsize

theorem gen_loop_length_le (dct : PyDict) (p : Params)
    (draw : Nat → List String × List String) :
    ∀ (fuel attempts : Nat) (seen : List (List (String × Nat)))
      (out : List RoundObj), out.length ≤ p.n_rounds →
      (gen_loop dct p draw fuel attempts seen out).length ≤ p.n_rounds := by
  intro fuel
  induction fuel with
  | zero =>
    intro _ _ out h
    simpa [gen_loop] using h
  | succ fuel ih =>
    intro attempts seen out h
    rw [gen_loop]
    by_cases hfull : p.n_rounds ≤ out.length
    · rw [if_pos hfull]
      exact h
    · rw [if_neg hfull]
      by_cases hsize : p.max_tiles <
          (round_tiles_from_targets (draw attempts).1 dct p.variant
            (draw attempts).2).1.length
      · rw [if_pos hsize]
        exact ih _ _ _ h
      · rw [if_neg hsize]
        by_cases hdup : (p.ensure_unique_rounds &&
            decide (signature (round_tiles_from_targets (draw attempts).1
              dct p.variant (draw attempts).2).1 ∈ seen)) = true
        · rw [if_pos hdup]
          exact ih _ _ _ h
        · rw [if_neg hdup]
          apply ih
          simp only [List.length_append, List.length_singleton]
          omega

theorem gen_loop_unique (dct : PyDict) (p : Params)
    (draw : Nat → List String × List String)
    (hu : p.ensure_unique_rounds = true) :
    ∀ (fuel attempts : Nat) (seen : List (List (String × Nat)))
      (out : List RoundObj),
      (∀ r ∈ out, signature r.tiles ∈ seen) →
      out.Pairwise (fun a b => signature a.tiles ≠ signature b.tiles) →
      (gen_loop dct p draw fuel attempts seen out).Pairwise
        (fun a b => signature a.tiles ≠ signature b.tiles) := by
  intro fuel
  induction fuel with
  | zero =>
    intro _ _ out _ hp
    simpa [gen_loop] using hp
  | succ fuel ih =>
    intro attempts seen out hseen hp
    rw [gen_loop]
    by_cases hfull : p.n_rounds ≤ out.length
    · rw [if_pos hfull]
      exact hp
    · rw [if_neg hfull]
      by_cases hsize : p.max_tiles <
          (round_tiles_from_targets (draw attempts).1 dct p.variant
            (draw attempts).2).1.length
      · rw [if_pos hsize]
        exact ih _ _ _ hseen hp
      · rw [if_neg hsize]
        by_cases hdup : (p.ensure_unique_rounds &&
            decide (signature (round_tiles_from_targets (draw attempts).1
              dct p.variant (draw attempts).2).1 ∈ seen)) = true
        · rw [if_pos hdup]
          exact ih _ _ _ hseen hp
        · rw [if_neg hdup]
          have hnotin : signature (round_tiles_from_targets
              (draw attempts).1 dct p.variant (draw attempts).2).1 ∉
                seen := by
            rw [hu] at hdup
            simpa using hdup
          simp only [hu, if_true]
          apply ih
          · intro r hr
            rcases List.mem_append.mp hr with hmem | hmem
            · exact List.mem_append.mpr (Or.inl (hseen r hmem))
            · have hreq : r = mkRound p out.length
                  (round_tiles_from_targets (draw attempts).1 dct
                    p.variant (draw attempts).2).1 (draw attempts).1
                  (round_tiles_from_targets (draw attempts).1 dct
                    p.variant (draw attempts).2).2 := by
                simpa using hmem
              rw [hreq]
              simp [mkRound]
          · rw [List.pairwise_append]
            refine ⟨hp, by simp, ?_⟩
            intro a ha b hb
            have hsa := hseen a ha
            have hbeq : b = mkRound p out.length
                (round_tiles_from_targets (draw attempts).1 dct
                  p.variant (draw attempts).2).1 (draw attempts).1
                (round_tiles_from_targets (draw attempts).1 dct
                  p.variant (draw attempts).2).2 := by
              simpa using hb
            rw [hbeq]
            simp only [mkRound]
            intro heq
            exact hnotin (heq ▸ hsa)

theorem gen_main_ok_shape {dct : PyDict} {p : Params}
    {draw : Nat → List String × List String} {out : List RoundObj}
    (h : gen_main dct p draw = Except.ok out) :
    out = gen_loop dct p draw (p.n_rounds * 20) 0 [] [] ∧
      p.n_rounds ≤ out.length := by
  unfold gen_main at h
  simp only [] at h
  by_cases hlt : (gen_loop dct p draw (p.n_rounds * 20) 0 [] []).length <
      p.n_rounds
  · rw [if_pos hlt] at h
    cases h
  · rw [if_neg hlt] at h
    have heq := (Except.ok.inj h).symm
    refine ⟨heq, ?_⟩
    rw [heq]
    omega

/-- C6: every round emitted by the generator batch driver has at most
`max_tiles` tiles; a candidate whose tile list is longer is rejected as a
retry and never written to the output stream. -/
theorem emitted_round_size_bound (dct : PyDict) (p : Params)
    (draw : Nat → List String × List String) (out : List RoundObj)
    (r : RoundObj) (h : gen_main dct p draw = Except.ok out)
    (hr : r ∈ out) : r.tiles.length ≤ p.max_tiles := by
  obtain ⟨heq, _⟩ := gen_main_ok_shape h
  rw [heq] at hr
  exact gen_loop_size_bound dct p draw _ _ _ _ (by simp) r hr

/-- C7: when round uniqueness is enforced, no two rounds emitted in one
generation run share a canonical signature (the sorted (token, count)
pairs of the tile multiset): duplicates are rejected as retries and each
accepted signature is registered. -/
theorem emitted_rounds_unique (dct : PyDict) (p : Params)
    (draw : Nat → List String × List String) (out : List RoundObj)
    (hu : p.ensure_unique_rounds = true)
    (h : gen_main dct p draw = Except.ok out) :
    out.Pairwise (fun a b => signature a.tiles ≠ signature b.tiles) := by
  obtain ⟨heq, _⟩ := gen_main_ok_shape h
  rw [heq]
  exact gen_loop_unique dct p draw hu _ _ _ _ (by simp) (by simp)

theorem gen_main_ok_length {dct : PyDict} {p : Params}
    {draw : Nat → List String × List String} {out : List RoundObj}
    (h : gen_main dct p draw = Except.ok out) :
    out.length = p.n_rounds := by
  obtain ⟨heq, hge⟩ := gen_main_ok_shape h
  have hle := gen_loop_length_le dct p draw (p.n_rounds * 20) 0 [] []
    (by simp)
  rw [heq] at hge ⊢
  omega

/-- The batch driver with the persisted output stream made explicit: in
the source each accepted round is written to the output file inside the
loop, and the final `RuntimeError` is raised after the file has been
closed, so the file keeps the rounds written so far on both the success
and the failure path. The first component is the content of the output
file, the second the run's outcome. -/
def gen_run (dct : PyDict) (p : Params)
    (draw : Nat → List String × List String) :
    List RoundObj × Except String Unit :=
  let out := gen_loop dct p draw (p.n_rounds * 20) 0 [] []
  (out,
    if out.length < p.n_rounds then
      Except.error "wrote fewer rounds than requested"
    else Except.ok ())

/-- Entry literal with a single tokenisation variant carrying the given
tokens, used by the concrete witnesses below. -/
def mkEntry (variant : String) (toks : List String) : PyVal :=
  PyVal.dict [(variant, PyVal.dict [("tokens",
    PyVal.list (toks.map PyVal.str))])]

/-- The concrete two-word dictionary of the specification's test
scenario. -/
def sampleDict : PyDict :=
  [("cat", mkEntry "sp" ["Gcat"]), ("catnip", mkEntry "sp" ["Gcat", "nip"])]

/-- A dictionary containing a word that needs the token `"a"` twice. -/
def doubleDict : PyDict :=
  [("aa", mkEntry "sp" ["a", "a"]), ("cat", mkEntry "sp" ["Gcat"])]

/-- Witness for C2 at a concrete input: `"aa"` needs `"a"` twice but the
tiles carry it once, so `"aa"` is not reported. -/
theorem multiplicity_sensitivity_witness :
    "aa" ∉ compute_solutions_for_round ["a", "b"]
      (build_indices doubleDict "sp") :=
  multiplicity_sensitivity doubleDict "sp" "aa" "a"
    (mkEntry "sp" ["a", "a"]) ["a", "b"] (by decide) (List.Mem.head _)
    (by decide) (by decide) (by decide)

/-- Witness for C3 at a concrete input: the target `"cat"` of a round
built from it is found among the solutions of the round's tiles. -/
theorem target_inclusion_witness :
    "cat" ∈ compute_solutions_for_round
      (round_tiles_from_targets ["cat"] sampleDict "sp" ["nip"]).1
      (build_indices sampleDict "sp") :=
  target_inclusion sampleDict "sp" 1 4 ["cat"] ["nip"]
    (round_tiles_from_targets ["cat"] sampleDict "sp" ["nip"]).1 "cat"
    (by decide) (by decide) (List.Perm.refl _) (by decide)

/-- A concrete round record for the enrichment witnesses. -/
def sampleRecord : List (String × PyVal) :=
  [("round_id", PyVal.int 0), ("variant", PyVal.str "sp"),
   ("tiles", PyVal.list [PyVal.str "Gcat", PyVal.str "nip",
     PyVal.str "Gcat"])]

/-- The solutions of the sample record's tiles. -/
def sampleSols : List String :=
  compute_solutions_for_round ["Gcat", "nip", "Gcat"]
    (build_indices sampleDict "sp")

/-- The enrichment of the sample record. -/
def sampleEnriched : List (String × PyVal) :=
  setKey (setKey sampleRecord "all_solutions"
    (PyVal.list (sampleSols.map PyVal.str))) "n_solutions"
    (PyVal.int sampleSols.length)

/-- Witness for C4 at a concrete input. -/
theorem enriched_solutions_sorted_unique_witness :
    ∃ sols : List String,
      sampleEnriched.lookup "all_solutions" =
        some (PyVal.list (sols.map PyVal.str)) ∧
      sampleEnriched.lookup "n_solutions" =
        some (PyVal.int sols.length) ∧
      List.Sorted (· ≤ ·) sols ∧ sols.Nodup :=
  enriched_solutions_sorted_unique sampleDict "sp" false sampleRecord
    sampleEnriched (by decide) rfl

/-- Witness for C5 at a concrete input. -/
theorem build_indices_index_correct_witness :
    (0 ∈ lookupIds (build_indices sampleDict "sp").token_to_word_ids
        "Gcat" ↔
      0 < (build_indices sampleDict "sp").word_token_counters.length ∧
        0 < ((build_indices sampleDict "sp").word_token_counters.getD 0
          []).count "Gcat") ∧
    (build_indices sampleDict "sp").word_list.length =
      (build_indices sampleDict "sp").word_token_counters.length ∧
    (0 < (build_indices sampleDict "sp").word_list.length →
      ∃ e, ((build_indices sampleDict "sp").word_list.getD 0 "", e) ∈
          sampleDict ∧
        is_entry_ok e "sp" = true ∧
        (build_indices sampleDict "sp").word_token_counters.getD 0 [] =
          entryTokens e "sp" ∧
        (build_indices sampleDict "sp").word_token_counters.getD 0 [] ≠
          []) :=
  build_indices_index_correct sampleDict "sp" "Gcat" 0

/-- Parameters for the successful generation witnesses. -/
def paramsAccept : Params :=
  { n_rounds := 1, variant := "sp", k_targets := 1, distractors := 0,
    seed := 0, min_tokens := 1, max_tokens := 4, max_tiles := 5,
    ensure_unique_rounds := true }

/-- The output stream of the successful generation run used by the
witnesses. -/
def acceptedRounds : List RoundObj :=
  [mkRound paramsAccept 0 ["Gcat"] ["cat"] [("cat", ["Gcat"])]]

/-- Witness for C6 at a concrete input. -/
theorem emitted_round_size_bound_witness :
    (mkRound paramsAccept 0 ["Gcat"] ["cat"]
      [("cat", ["Gcat"])]).tiles.length ≤ paramsAccept.max_tiles :=
  emitted_round_size_bound sampleDict paramsAccept
    (fun _ => (["cat"], [])) acceptedRounds
    (mkRound paramsAccept 0 ["Gcat"] ["cat"] [("cat", ["Gcat"])]) rfl
    (List.Mem.head _)

/-- Witness for C7 at a concrete input. -/
theorem emitted_rounds_unique_witness :
    acceptedRounds.Pairwise
      (fun a b => signature a.tiles ≠ signature b.tiles) :=
  emitted_rounds_unique sampleDict paramsAccept (fun _ => (["cat"], []))
    acceptedRounds rfl rfl

/-- Witness for C9 at a concrete input: the `variant` field survives
enrichment unchanged. -/
theorem enrich_record_frame_witness :
    sampleEnriched.lookup "variant" = sampleRecord.lookup "variant" :=
  enrich_record_frame false "sp" sampleRecord sampleEnriched
    (build_indices sampleDict "sp") "variant" rfl (by decide) (by decide)

/-- Parameters under which a concrete run accepts one round and then
exhausts its retry budget on uniqueness collisions: two rounds are
requested but the constant draw always regenerates the same tile
multiset. -/
def paramsDup : Params :=
  { n_rounds := 2, variant := "sp", k_targets := 1, distractors := 0,
    seed := 0, min_tokens := 1, max_tokens := 4, max_tiles := 5,
    ensure_unique_rounds := true }

/-- Counterexample to C8 as stated: this run exhausts its retry budget and
fails with the fatal error, yet the round written before exhaustion is
still present in the output stream — the partial output survives the
failure instead of being discarded. -/
theorem retry_budget_output_persists :
    (gen_run sampleDict paramsDup (fun _ => (["cat"], []))).2 =
      Except.error "wrote fewer rounds than requested" ∧
    (gen_run sampleDict paramsDup (fun _ => (["cat"], []))).1 =
      [mkRound paramsDup 0 ["Gcat"] ["cat"] [("cat", ["Gcat"])]] :=
  ⟨rfl, rfl⟩

/-- C8 (corrected): when the generation loop exhausts its retry budget
(20 times the requested round count) having written fewer than the
requested number of rounds, the run's outcome is a fatal error — it never
succeeds with fewer rounds — while the output stream keeps exactly the
rounds written up to that point (the source raises only after the output
file, containing them, has been closed). -/
theorem retry_budget_exhaustion_fatal_output_kept (dct : PyDict)
    (p : Params) (draw : Nat → List String × List String)
    (h : (gen_loop dct p draw (p.n_rounds * 20) 0 [] []).length <
      p.n_rounds) :
    (gen_run dct p draw).2 =
      Except.error "wrote fewer rounds than requested" ∧
    (gen_run dct p draw).1 =
      gen_loop dct p draw (p.n_rounds * 20) 0 [] [] := by
  constructor
  · unfold gen_run
    simp only []
    rw [if_pos h]
  · rfl

/-- Witness for the corrected C8 at the concrete budget-exhausting run. -/
theorem retry_budget_exhaustion_fatal_output_kept_witness :
    (gen_run sampleDict paramsDup (fun _ => (["cat"], []))).2 =
      Except.error "wrote fewer rounds than requested" ∧
    (gen_run sampleDict paramsDup (fun _ => (["cat"], []))).1 =
      gen_loop sampleDict paramsDup (fun _ => (["cat"], []))
        (paramsDup.n_rounds * 20) 0 [] [] :=
  retry_budget_exhaustion_fatal_output_kept sampleDict paramsDup
    (fun _ => (["cat"], [])) (by decide)
